import Mathlib

/-!
Shallow embedding of the canon/non-canon bookkeeping core of the
text-adventure engine (src/models.py, src/game_world.py, src/game_ui.py,
src/utils.py).

Python object references are modelled with an explicit object store: every
`Room` object ever constructed lives in `GameWorld.heap` (a list, index =
object identity), and every place where the Python code stores a `Room`
object (the `rooms` dict values, `current_room`, the `connections` dict
values) stores the heap index instead.  Mutating a room in place
(`connect_rooms`) is `List.set` on the heap, so aliased references observe
the update exactly as in Python.

External LLM calls (`utils.generate_non_canon_event`,
`utils.generate_actions`) are modelled as an explicit `Generator` record of
oracle functions returning `Except Unit _`; `.error` models the call raising
an exception.  Operations that perform such calls return
`Except GameWorld GameWorld`: `.ok w` is normal completion, `.error w` is a
raised exception that leaves the (partially mutated) state `w` behind,
mirroring a Python exception propagating out of the method.
-/

namespace Onton

/-- models.Direction: a str-valued enum with the four cardinal directions. -/
inductive Direction where
  | north
  | south
  | east
  | west
deriving DecidableEq, Repr

/-- The `opposite` mapping defined inside GameWorld.connect_rooms
(src/game_world.py lines 55-60); the reverse wiring that would use it is
commented out in the source. -/
def Direction.opposite : Direction → Direction
  | .north => .south
  | .south => .north
  | .east => .west
  | .west => .east

/-- A typed story-variable value: Python `Union[str, int, bool]`. -/
inductive VarValue where
  | str (s : String)
  | int (n : Int)
  | bool (b : Bool)
deriving DecidableEq, Repr

/-- The variable store: a Python dict from variable name to typed value,
modelled as a partial map. -/
def Vars : Type := String → Option VarValue

/-- models.Event: NamedTuple of event text and canon flag. -/
structure Event where
  event : String
  is_canon : Bool
deriving DecidableEq, Repr

/-- An element of `GameWorld.seen_events`.  The source appends the `Event`
NamedTuple *class object* itself (`self.game_world.seen_events.append(Event)`
in GameUI.move), not an event instance, so the list can hold either the
class object or an event value. -/
inductive SeenEvent where
  | eventClass
  | ev (e : Event)
deriving DecidableEq, Repr

/-- models.Action: a description plus the dict of variable changes.  The
dict is modelled as its ordered list of key/value items (Python dicts have
unique keys and preserve insertion order). -/
structure Action where
  action_description : String
  changed_variables : List (String × VarValue)
deriving DecidableEq, Repr

/-- models.Actions: a list of actions. -/
structure Actions where
  actions : List Action
deriving DecidableEq, Repr

/-- models.Room.  `connections` maps each of the four directions to an
optional reference (heap index) to the connected Room object; the source
type annotation says `Optional[str]` but the stored values are Room
objects, i.e. references. -/
structure Room where
  name : String
  description : String
  image_prompt : String
  image_path : Option String
  connections : Direction → Option Nat
  canon_event : String

/-- models.Room.__init__: a freshly constructed room has `image_path = None`
and all four connection entries empty. -/
def mkRoom (name description image_prompt canon_event : String) : Room :=
  { name := name
    description := description
    image_prompt := image_prompt
    image_path := none
    connections := fun _ => none
    canon_event := canon_event }

/-- game_world.GameWorld state.  `heap` is the object store for Room
objects (see the module comment); `rooms` is the name-keyed dict of owned
rooms, holding references into the heap. -/
structure GameWorld where
  heap : List Room
  rooms : String → Option Nat
  current_room : Option Nat
  original_room_visit_order : List String
  current_event : Option Event
  visited_rooms : List String
  seen_events : List SeenEvent
  -- the Python attribute is named `variables`, a reserved word in Lean 4
  vars : Vars
  actions : Option Actions

/-- GameWorld.__init__ (the OpenAI client field is external and omitted). -/
def GameWorld.init (original_room_visit_order : List String) (vars0 : Vars) : GameWorld :=
  { heap := []
    rooms := fun _ => none
    current_room := none
    original_room_visit_order := original_room_visit_order
    current_event := none
    visited_rooms := []
    seen_events := []
    vars := vars0
    actions := none }

/-- The external LLM collaborator (utils.generate_non_canon_event and
utils.generate_actions), as oracle functions; `.error ()` models the call
raising an exception (network failure, timeout, cancellation). -/
structure Generator where
  non_canon_event : Room → List SeenEvent → Except Unit String
  gen_actions : Room → Option Event → Vars → Except Unit Actions

/-- GameWorld.is_canon_route (src/game_world.py lines 33-37):
`self.visited_rooms == self.original_room_visit_order[:min(len(self.original_room_visit_order), len(self.visited_rooms))]`.
Note that the full, untruncated visited list is compared against the slice
of the reference order. -/
def GameWorld.is_canon_route (w : GameWorld) : Bool :=
  decide (w.visited_rooms =
    w.original_room_visit_order.take
      (min w.original_room_visit_order.length w.visited_rooms.length))

/-- GameWorld.generate_actions (src/game_world.py lines 119-124):
`self.actions = generate_actions(self.current_room, self.current_event, self.variables)`.
If the external call raises, `self.actions` is not assigned and the
exception propagates with the state unchanged.  The `none` fallbacks for a
missing current room / dangling reference model the AttributeError the
Python code would raise before mutating anything. -/
def GameWorld.generate_actions (w : GameWorld) (g : Generator) : Except GameWorld GameWorld :=
  match w.current_room with
  | none => .error w
  | some cid =>
    match w.heap[cid]? with
    | none => .error w
    | some room =>
      match g.gen_actions room w.current_event w.vars with
      | .error _ => .error w
      | .ok acts => .ok { w with actions := some acts }

/-- GameWorld.add_room (src/game_world.py lines 39-48).  Allocates the Room
object on the heap, binds it in the `rooms` dict, and if there was no
current room makes it current, records it in the visitation history, sets
its canon event active, and generates the first action set. -/
def GameWorld.add_room (w : GameWorld) (g : Generator) (room : Room) : Except GameWorld GameWorld :=
  let rid := w.heap.length
  let w1 : GameWorld :=
    { w with
      heap := w.heap ++ [room]
      rooms := fun n => if n = room.name then some rid else w.rooms n }
  match w1.current_room with
  | some _ => .ok w1
  | none =>
    let w2 : GameWorld :=
      { w1 with
        visited_rooms := w1.visited_rooms ++ [room.name]
        current_room := some rid
        current_event := some { event := room.canon_event, is_canon := true } }
    w2.generate_actions g

/-- GameWorld.connect_rooms (src/game_world.py lines 50-66): no-op when
either name is absent; otherwise sets room1's connection entry at
`direction` to (a reference to) room2.  The reverse-direction assignment is
commented out in the source. -/
def GameWorld.connect_rooms (w : GameWorld) (room1_name room2_name : String)
    (direction : Direction) : GameWorld :=
  match w.rooms room1_name, w.rooms room2_name with
  | some i, some j =>
    match w.heap[i]? with
    | none => w
    | some r1 =>
      { w with
        heap := w.heap.set i
          { r1 with connections := fun d => if d = direction then some j else r1.connections d } }
  | _, _ => w

/-- GameWorld.get_event (src/game_world.py lines 109-116): on the canon
route, the room's fixed canon event with flag true; otherwise the external
non-canon generator is consulted with the seen-events list and the flag is
false. -/
def GameWorld.get_event (w : GameWorld) (g : Generator) (room : Room) :
    Except Unit (String × Bool) :=
  if w.is_canon_route then
    .ok (room.canon_event, true)
  else
    match g.non_canon_event room w.seen_events with
    | .error e => .error e
    | .ok txt => .ok (txt, false)

/-- One iteration of the GameWorld.update_variables loop: overwrite the
variable only when its name is already present in the store
(`if variable in self.variables`). -/
def varStep (vs : Vars) (kv : String × VarValue) : Vars :=
  if (vs kv.1).isSome then (fun n => if n = kv.1 then some kv.2 else vs n) else vs

/-- The body of GameWorld.update_variables: fold over the action's
changed-variable items in dict order. -/
def updateVarsList (vars : Vars) (changes : List (String × VarValue)) : Vars :=
  changes.foldl varStep vars

/-- GameWorld.update_variables (src/game_world.py lines 126-133). -/
def GameWorld.update_variables (w : GameWorld) (a : Action) : GameWorld :=
  { w with vars := updateVarsList w.vars a.changed_variables }

/-- GameWorld.has_valid_variables (src/game_world.py lines 135-139):
`any(var in self.variables for var in action.changed_variables.keys())`. -/
def GameWorld.has_valid_variables (w : GameWorld) (a : Action) : Bool :=
  a.changed_variables.any (fun kv => (w.vars kv.1).isSome)

/-- GameUI.move (src/game_ui.py lines 245-261), restricted to its game-state
effect (update_display only touches widgets).  Order of mutations matches
the source: set current room, append history, call get_event (which may
raise), set current event, append the Event class object to seen_events,
regenerate actions (which may raise). -/
def GameUI.move (w : GameWorld) (g : Generator) (d : Direction) : Except GameWorld GameWorld :=
  match w.current_room with
  | none => .ok w
  | some cid =>
    match w.heap[cid]? with
    | none => .ok w
    | some cur =>
      match cur.connections d with
      | none => .ok w
      | some nid =>
        match w.heap[nid]? with
        | none => .ok w
        | some nr =>
          let w1 : GameWorld :=
            { w with
              current_room := some nid
              visited_rooms := w.visited_rooms ++ [nr.name] }
          match w1.get_event g nr with
          | .error _ => .error w1
          | .ok (ev, isc) =>
            let w2 : GameWorld :=
              { w1 with
                current_event := some { event := ev, is_canon := isc }
                seen_events := w1.seen_events ++ [SeenEvent.eventClass] }
            w2.generate_actions g

/-- GameUI.perform_action (src/game_ui.py lines 332-337):
`self.game_world.update_variables(action); self.update_display()`.
update_display only reads state into widgets, so the game-state effect is
exactly update_variables. -/
def GameUI.perform_action (w : GameWorld) (a : Action) : GameWorld :=
  w.update_variables a

/-- Collapse an `Except GameWorld GameWorld` to the state it left behind
(the result state on normal return, the partial state on a raise). -/
def resState : Except GameWorld GameWorld → GameWorld
  | .ok w => w
  | .error w => w

/-- True when the operation raised. -/
def raised : Except GameWorld GameWorld → Bool
  | .ok _ => false
  | .error _ => true

/-- The direction-to-grid-offset table of GameUI.calculate_room_positions
(src/game_ui.py lines 108-113). -/
def offsets : Direction → Int × Int
  | .north => (0, -1)
  | .south => (0, 1)
  | .east => (1, 0)
  | .west => (-1, 0)

/-- Iteration order of `current_room.connections.items()`: the insertion
order fixed by Room.__init__. -/
def directionOrder : List Direction :=
  [.north, .south, .east, .west]

/-- The mutable state of GameUI.calculate_room_positions: the grid-position
dict (as its ordered item list), the four extents (`none` models the
initial float infinities, before any room is placed), the visited name set
and the BFS queue of (room reference, grid x, grid y). -/
structure LayoutState where
  grid_positions : List (String × Int × Int)
  min_x : Option Int
  max_x : Option Int
  min_y : Option Int
  max_y : Option Int
  visited : List String
  queue : List (Nat × Int × Int)

/-- `min_x = min(min_x, v)` against a possibly-infinite current value. -/
def updMin (o : Option Int) (v : Int) : Option Int :=
  match o with
  | none => some v
  | some m => some (min m v)

/-- `max_x = max(max_x, v)` against a possibly-infinite current value. -/
def updMax (o : Option Int) (v : Int) : Option Int :=
  match o with
  | none => some v
  | some m => some (max m v)

/-- Body of the `for direction, next_room in current_room.connections.items()`
loop (src/game_ui.py lines 119-131): an existing, unvisited neighbor is
assigned the parent coordinate plus the direction offset, enqueued, marked
visited, and folded into the extents. -/
def processNeighbor (w : GameWorld) (room : Room) (x y : Int) (s : LayoutState)
    (d : Direction) : LayoutState :=
  match room.connections d with
  | none => s
  | some nid =>
    match w.heap[nid]? with
    | none => s
    | some nr =>
      if nr.name ∈ s.visited then s
      else
        let nx := x + (offsets d).1
        let ny := y + (offsets d).2
        { grid_positions := s.grid_positions ++ [(nr.name, nx, ny)]
          min_x := updMin s.min_x nx
          max_x := updMax s.max_x nx
          min_y := updMin s.min_y ny
          max_y := updMax s.max_y ny
          visited := s.visited ++ [nr.name]
          queue := s.queue ++ [(nid, nx, ny)] }

/-- The `while queue:` BFS loop of GameUI.calculate_room_positions.  The
recursion is fuelled; every dequeued element was enqueued together with a
fresh visited name, so `w.heap.length + 1` units of fuel (supplied by
`calculate_room_positions`) are enough to drain the queue.  All properties
proved below are loop invariants, so they hold at any fuel. -/
def bfsLoop (w : GameWorld) : Nat → LayoutState → LayoutState
  | 0, s => s
  | fuel + 1, s =>
    match s.queue with
    | [] => s
    | (rid, x, y) :: rest =>
      let s1 : LayoutState := { s with queue := rest }
      match w.heap[rid]? with
      | none => bfsLoop w fuel s1
      | some room =>
        bfsLoop w fuel (directionOrder.foldl (processNeighbor w room x y) s1)

/-- The empty layout produced when there is no current room (the dict is
empty and the extents are still the float infinities). -/
def emptyLayout : LayoutState :=
  { grid_positions := []
    min_x := none
    max_x := none
    min_y := none
    max_y := none
    visited := []
    queue := [] }

/-- GameUI.calculate_room_positions (src/game_ui.py lines 76-131): place the
current room at (0,0) and BFS outward through the connection references,
assigning each newly discovered room the parent coordinate plus the
direction offset and keeping min/max extents of everything placed. -/
def calculate_room_positions (w : GameWorld) : LayoutState :=
  match w.current_room with
  | none => emptyLayout
  | some rid =>
    match w.heap[rid]? with
    | none => emptyLayout
    | some r =>
      bfsLoop w (w.heap.length + 1)
        { grid_positions := [(r.name, 0, 0)]
          min_x := some 0
          max_x := some 0
          min_y := some 0
          max_y := some 0
          visited := [r.name]
          queue := [(rid, 0, 0)] }

/-- First-assigned grid coordinate of a room name in a layout (lookup in the
grid-position dict). -/
def LayoutState.lookup (s : LayoutState) (n : String) : Option (Int × Int) :=
  (s.grid_positions.find? (fun e => e.1 = n)).map (fun e => (e.2.1, e.2.2))

/-- The structural invariant of the spec (section 3): every connection entry
of a room owned by the graph is either empty or a reference to a room that
is a member of the owned set (i.e. some name maps to that same object), and
the current room, if set, is a member of the owned set.  References are
additionally required to be live heap indices.  The "exactly four entries
north/south/east/west" part of the invariant is structural in this model:
`connections` is a total function on `Direction`. -/
def GameWorld.Wf (w : GameWorld) : Prop :=
  (∀ n i, w.rooms n = some i → i < w.heap.length) ∧
  (∀ i, w.current_room = some i → ∃ n, w.rooms n = some i) ∧
  (∀ n i r d j, w.rooms n = some i → w.heap[i]? = some r → r.connections d = some j →
    ∃ m, w.rooms m = some j)

/-- The empty variable store. -/
def varsEmpty : Vars := fun _ => none

/-- A store holding the single integer variable health = 3. -/
def varsHealth : Vars :=
  fun n => if n = "health" then some (.int 3) else none

/-- A generator whose calls always succeed (non-canon text "improvised",
empty action set). -/
def genOk : Generator :=
  { non_canon_event := fun _ _ => .ok "improvised"
    gen_actions := fun _ _ _ => .ok { actions := [] } }

/-- A generator whose non-canon-event call raises (models a network failure
or timeout during the external call backing a move). -/
def genFail : Generator :=
  { non_canon_event := fun _ _ => .error ()
    gen_actions := fun _ _ _ => .ok { actions := [] } }

/-- Concrete state for C1: reference order [A, B], visitation history
[A, B, C] (the matching-prefix scenario of spec section 8). -/
def c1World : GameWorld :=
  { GameWorld.init ["A", "B"] varsEmpty with visited_rooms := ["A", "B", "C"] }

/-- Room A of the two-room worlds: its north connection references object 1
(room B). -/
def roomA : Room :=
  { mkRoom "A" "room a" "" "event A" with
    connections := fun d => if d = Direction.north then some 1 else none }

/-- Room B of the two-room worlds: no connections. -/
def roomB : Room := mkRoom "B" "room b" "" "event B"

/-- A two-room world: A (current) with a north connection to B, reference
order [A], history [A].  Moving north leaves the canon route, so the
non-canon generator is consulted. -/
def c2World : GameWorld :=
  { heap := [roomA, roomB]
    rooms := fun n => if n = "A" then some 0 else if n = "B" then some 1 else none
    current_room := some 0
    original_room_visit_order := ["A"]
    current_event := some { event := "event A", is_canon := true }
    visited_rooms := ["A"]
    seen_events := []
    vars := varsEmpty
    actions := none }

/-- The action set held before the C3 counterexample action is taken. -/
def acts0 : Actions :=
  { actions := [{ action_description := "wait", changed_variables := [] }] }

/-- The action set the generator would produce if asked to regenerate. -/
def acts1 : Actions :=
  { actions := [{ action_description := "look around", changed_variables := [] }] }

/-- A generator whose action generation returns `acts1`. -/
def genActs1 : Generator :=
  { non_canon_event := fun _ _ => .ok "improvised"
    gen_actions := fun _ _ _ => .ok acts1 }

/-- Concrete state for C3: one room, current event set, action set `acts0`,
store holding health = 3. -/
def c3World : GameWorld :=
  { heap := [mkRoom "A" "room a" "" "event A"]
    rooms := fun n => if n = "A" then some 0 else none
    current_room := some 0
    original_room_visit_order := ["A"]
    current_event := some { event := "event A", is_canon := true }
    visited_rooms := ["A"]
    seen_events := []
    vars := varsHealth
    actions := some acts0 }

/-- An action proposing health = 5. -/
def c3Action : Action :=
  { action_description := "drink the vial", changed_variables := [("health", .int 5)] }

/-- Concrete state for C9: the world after adding a first room named A. -/
def c9World1 : GameWorld :=
  resState ((GameWorld.init [] varsEmpty).add_room genOk (mkRoom "A" "room a" "" "event A"))

/-- A second, distinct room that reuses the name A. -/
def roomA2 : Room := mkRoom "A" "another room a" "" "event A2"

/-- Concrete state for C9: the world after adding a second room under the
duplicate name A. -/
def c9World2 : GameWorld := resState (c9World1.add_room genOk roomA2)

/-- A world on the canon route: reference order [A, B], history [A]. -/
def c1WitWorld : GameWorld :=
  { GameWorld.init ["A", "B"] varsEmpty with visited_rooms := ["A"] }

/-- An action touching one existing variable (health) and one unknown
variable (mana). -/
def c4Action : Action :=
  { action_description := "meditate"
    changed_variables := [("health", .int 9), ("mana", .int 2)] }

/-! ## Lemmas about the variable-store update -/

theorem varStep_isSome (vs : Vars) (kv : String × VarValue) (k : String) :
    (varStep vs kv k).isSome = (vs k).isSome := by
  unfold varStep
  by_cases h : (vs kv.1).isSome
  · simp only [h, if_true]
    by_cases hk : k = kv.1
    · subst hk; simp [h]
    · simp [hk]
  · simp [h]

theorem updateVarsList_isSome (changes : List (String × VarValue)) (vars : Vars) (k : String) :
    (updateVarsList vars changes k).isSome = (vars k).isSome := by
  induction changes generalizing vars with
  | nil => rfl
  | cons kv rest ih =>
    show (updateVarsList (varStep vars kv) rest k).isSome = (vars k).isSome
    rw [ih, varStep_isSome]

theorem updateVarsList_absent (changes : List (String × VarValue)) (vars : Vars) (k : String)
    (h : vars k = none) : updateVarsList vars changes k = none := by
  have := updateVarsList_isSome changes vars k
  rw [h] at this
  simp only [Option.isSome_none] at this
  exact Option.not_isSome_iff_eq_none.mp (by simp [this])

theorem updateVarsList_not_mem (changes : List (String × VarValue)) (vars : Vars) (k : String)
    (h : ∀ v, (k, v) ∉ changes) : updateVarsList vars changes k = vars k := by
  induction changes generalizing vars with
  | nil => rfl
  | cons kv rest ih =>
    have hk : k ≠ kv.1 := by
      intro hkk
      exact h kv.2 (by rw [hkk]; exact List.mem_cons_self _ _)
    have hstep : varStep vars kv k = vars k := by
      unfold varStep
      by_cases hs : (vars kv.1).isSome
      · simp [hs, hk]
      · simp [hs]
    show updateVarsList (varStep vars kv) rest k = vars k
    rw [ih (varStep vars kv) fun v hv => h v (List.mem_cons_of_mem _ hv), hstep]

theorem updateVarsList_mem (changes : List (String × VarValue)) (vars : Vars)
    (k : String) (v : VarValue)
    (hnd : (changes.map Prod.fst).Nodup) (hmem : (k, v) ∈ changes)
    (hsome : (vars k).isSome) : updateVarsList vars changes k = some v := by
  induction changes generalizing vars with
  | nil => exact absurd hmem (List.not_mem_nil _)
  | cons kv rest ih =>
    rw [List.map_cons, List.nodup_cons] at hnd
    rcases List.mem_cons.mp hmem with hhead | htail
    · subst hhead
      have hstep : varStep vars (k, v) k = some v := by
        unfold varStep
        simp [hsome]
      show updateVarsList (varStep vars (k, v)) rest k = some v
      rw [updateVarsList_not_mem rest _ k, hstep]
      intro v' hv'
      exact hnd.1 (List.mem_map.mpr ⟨(k, v'), hv', rfl⟩)
    · have hk : k ≠ kv.1 := by
        intro hkk
        exact hnd.1 (List.mem_map.mpr ⟨(k, v), htail, by rw [hkk]⟩)
      have hstep : varStep vars kv k = vars k := by
        unfold varStep
        by_cases hs : (vars kv.1).isSome
        · simp [hs, hk]
        · simp [hs]
      show updateVarsList (varStep vars kv) rest k = some v
      exact ih (varStep vars kv) hnd.2 htail (by rw [hstep]; exact hsome) ▸
        (by rw [ih (varStep vars kv) hnd.2 htail (by rw [hstep]; exact hsome)])

/-! ## C1: canon-route check -/

/-- C1 counterexample: with reference order [A, B] and history [A, B, C],
the history truncated to min(len H, len R) = 2 is element-wise equal to the
length-2 prefix of the reference order, yet is_canon_route returns false
(the source compares the untruncated history against the slice). -/
theorem is_canon_route_counterexample :
    c1World.visited_rooms.take
        (min c1World.original_room_visit_order.length c1World.visited_rooms.length) =
      c1World.original_room_visit_order.take
        (min c1World.original_room_visit_order.length c1World.visited_rooms.length) ∧
    c1World.is_canon_route = false := by
  constructor
  · decide
  · decide

/-- C1 (amended): is_canon_route returns true iff the full, untruncated
visitation history is an initial segment of the reference order, i.e. iff
len(H) ≤ len(R) and H equals the length-len(H) prefix of R.  In particular
with R = [A, B] both H = [A, B, C] and H = [A, C] yield false. -/
theorem is_canon_route_amended (w : GameWorld) :
    w.is_canon_route = true ↔
      w.visited_rooms.length ≤ w.original_room_visit_order.length ∧
        w.original_room_visit_order.take w.visited_rooms.length = w.visited_rooms := by
  unfold GameWorld.is_canon_route
  rw [decide_eq_true_eq]
  constructor
  · intro h
    have hlen := congrArg List.length h
    rw [List.length_take, Nat.min_eq_left (Nat.min_le_left _ _)] at hlen
    have hle : w.visited_rooms.length ≤ w.original_room_visit_order.length := by
      rw [hlen]; exact Nat.min_le_left _ _
    refine ⟨hle, ?_⟩
    rw [← hlen] at h
    exact h.symm
  · rintro ⟨hle, heq⟩
    rw [Nat.min_eq_right hle, heq]

/-- C1 witness: on the concrete world with reference order [A, B] and
history [A], the amended characterization yields is_canon_route = true. -/
theorem is_canon_route_amended_witness : c1WitWorld.is_canon_route = true :=
  (is_canon_route_amended c1WitWorld).mpr ⟨by decide, by decide⟩

/-! ## C2: atomicity of move with respect to generator failure -/

/-- C2 counterexample: on the two-room world, moving north makes the
history leave the canon route, the non-canon generator call raises, the
move raises — and afterwards the current room and the visitation history
differ from their pre-move values (the room transition had already been
committed before the external call). -/
theorem move_atomicity_counterexample :
    raised (GameUI.move c2World genFail Direction.north) = true ∧
    (resState (GameUI.move c2World genFail Direction.north)).current_room ≠
      c2World.current_room ∧
    (resState (GameUI.move c2World genFail Direction.north)).visited_rooms ≠
      c2World.visited_rooms := by
  refine ⟨by decide, by decide, by decide⟩

/-- C2 (amended): when the event-generator call backing a move raises, the
variable store, the current event, the seen-events list and the action set
keep their pre-move values, but the current room and the visitation history
already reflect the destination room: the move is not atomic. -/
theorem move_gen_failure_amended (w : GameWorld) (g : Generator) (d : Direction)
    (cid : Nat) (cur : Room) (nid : Nat) (nr : Room)
    (h1 : w.current_room = some cid)
    (h2 : w.heap[cid]? = some cur)
    (h3 : cur.connections d = some nid)
    (h4 : w.heap[nid]? = some nr)
    (h5 : GameWorld.is_canon_route
      { w with current_room := some nid,
               visited_rooms := w.visited_rooms ++ [nr.name] } = false)
    (h6 : g.non_canon_event nr w.seen_events = .error ()) :
    raised (GameUI.move w g d) = true ∧
    (resState (GameUI.move w g d)).vars = w.vars ∧
    (resState (GameUI.move w g d)).current_event = w.current_event ∧
    (resState (GameUI.move w g d)).seen_events = w.seen_events ∧
    (resState (GameUI.move w g d)).actions = w.actions ∧
    (resState (GameUI.move w g d)).current_room = some nid ∧
    (resState (GameUI.move w g d)).visited_rooms = w.visited_rooms ++ [nr.name] := by
  have hmove : GameUI.move w g d =
      .error { w with current_room := some nid,
                      visited_rooms := w.visited_rooms ++ [nr.name] } := by
    simp only [GameUI.move, h1, h2, h3, h4, GameWorld.get_event, h5,
      Bool.false_eq_true, if_false, h6]
  rw [hmove]
  exact ⟨rfl, rfl, rfl, rfl, rfl, rfl, rfl⟩

/-- C2 witness: the amended statement instantiated on the concrete two-room
world with the failing generator. -/
theorem move_gen_failure_amended_witness :
    raised (GameUI.move c2World genFail Direction.north) = true ∧
    (resState (GameUI.move c2World genFail Direction.north)).vars = c2World.vars ∧
    (resState (GameUI.move c2World genFail Direction.north)).current_event =
      c2World.current_event ∧
    (resState (GameUI.move c2World genFail Direction.north)).seen_events =
      c2World.seen_events ∧
    (resState (GameUI.move c2World genFail Direction.north)).actions = c2World.actions ∧
    (resState (GameUI.move c2World genFail Direction.north)).current_room = some 1 ∧
    (resState (GameUI.move c2World genFail Direction.north)).visited_rooms =
      c2World.visited_rooms ++ [roomB.name] :=
  move_gen_failure_amended c2World genFail Direction.north 0 roomA 1 roomB
    rfl rfl rfl rfl (by decide) rfl

/-! ## C3: effect of perform_action -/

/-- C3 counterexample: taking an action leaves the pre-existing action set
`acts0` in place even though the action generator, if consulted on the
resulting state, would return the different set `acts1`: perform_action
does not regenerate actions. -/
theorem perform_action_counterexample :
    (GameUI.perform_action c3World c3Action).actions = some acts0 ∧
    (resState ((GameUI.perform_action c3World c3Action).generate_actions genActs1)).actions =
      some acts1 ∧
    acts0 ≠ acts1 := by
  refine ⟨rfl, rfl, by decide⟩

/-- C3 (amended): perform_action applies the action's variable deltas to
the store (overwriting only variables already present) and leaves every
other piece of session state — the action set included — unchanged; the
action set is not regenerated and the event and room do not change. -/
theorem perform_action_amended (w : GameWorld) (a : Action)
    (hnd : (a.changed_variables.map Prod.fst).Nodup) :
    (GameUI.perform_action w a).actions = w.actions ∧
    (GameUI.perform_action w a).current_event = w.current_event ∧
    (GameUI.perform_action w a).current_room = w.current_room ∧
    (GameUI.perform_action w a).visited_rooms = w.visited_rooms ∧
    (GameUI.perform_action w a).seen_events = w.seen_events ∧
    (GameUI.perform_action w a).heap = w.heap ∧
    (GameUI.perform_action w a).rooms = w.rooms ∧
    (∀ k v, (k, v) ∈ a.changed_variables → (w.vars k).isSome →
      (GameUI.perform_action w a).vars k = some v) ∧
    (∀ k, (∀ v, (k, v) ∉ a.changed_variables) →
      (GameUI.perform_action w a).vars k = w.vars k) :=
  ⟨rfl, rfl, rfl, rfl, rfl, rfl, rfl,
    fun k v hm hs => updateVarsList_mem a.changed_variables w.vars k v hnd hm hs,
    fun k hk => updateVarsList_not_mem a.changed_variables w.vars k hk⟩

/-- C3 witness: the amended statement instantiated on the concrete one-room
world and the health-changing action. -/
theorem perform_action_amended_witness :
    (GameUI.perform_action c3World c3Action).actions = some acts0 ∧
    (GameUI.perform_action c3World c3Action).current_room = some 0 ∧
    (GameUI.perform_action c3World c3Action).vars "health" = some (.int 5) := by
  have h := perform_action_amended c3World c3Action (by decide)
  exact ⟨h.1, h.2.2.1, h.2.2.2.2.2.2.2.1 "health" (.int 5) (by decide) (by decide)⟩

/-! ## C4: update_variables against the store -/

/-- C4: after update_variables, every variable named in the action that
already existed in the store holds the action's proposed value, every
variable not named in the action keeps its prior value, a name absent from
the store before the call is still absent after, and the key set of the
store is unchanged. -/
theorem update_variables_spec (w : GameWorld) (a : Action)
    (hnd : (a.changed_variables.map Prod.fst).Nodup) :
    (∀ k v, (k, v) ∈ a.changed_variables → (w.vars k).isSome →
      (w.update_variables a).vars k = some v) ∧
    (∀ k, (∀ v, (k, v) ∉ a.changed_variables) →
      (w.update_variables a).vars k = w.vars k) ∧
    (∀ k, w.vars k = none → (w.update_variables a).vars k = none) ∧
    (∀ k, ((w.update_variables a).vars k).isSome = (w.vars k).isSome) :=
  ⟨fun k v hm hs => updateVarsList_mem a.changed_variables w.vars k v hnd hm hs,
    fun k hk => updateVarsList_not_mem a.changed_variables w.vars k hk,
    fun k hk => updateVarsList_absent a.changed_variables w.vars k hk,
    fun k => updateVarsList_isSome a.changed_variables w.vars k⟩

/-- C4 witness: on the store {health = 3} and an action proposing
health = 9 and mana = 2, the existing variable is overwritten and the
unknown variable stays absent. -/
theorem update_variables_spec_witness :
    (GameWorld.update_variables c3World c4Action).vars "health" = some (.int 9) ∧
    (GameWorld.update_variables c3World c4Action).vars "mana" = none := by
  have h := update_variables_spec c3World c4Action (by decide)
  exact ⟨h.1 "health" (.int 9) (by decide) (by decide), h.2.2.1 "mana" rfl⟩

/-! ## Heap lookup helper lemmas -/

theorem getHeap_set_eq {α : Type} (l : List α) (i : Nat) (a : α) (h : i < l.length) :
    (l.set i a)[i]? = some a := by
  rw [List.getElem?_set_self']
  simp [List.getElem?_eq_getElem h]

theorem getHeap_set_ne {α : Type} (l : List α) (i k : Nat) (a : α) (h : k ≠ i) :
    (l.set i a)[k]? = l[k]? :=
  List.getElem?_set_ne (fun hh => h hh.symm)

theorem lt_length_of_getHeap {α : Type} (l : List α) (i : Nat) (a : α) (h : l[i]? = some a) :
    i < l.length := by
  by_contra hc
  rw [List.getElem?_eq_none (Nat.le_of_not_lt hc)] at h
  exact Option.noConfusion h

theorem opposite_ne (d : Direction) : d.opposite ≠ d := by
  cases d <;> decide

/-! ## C5: connect_rooms -/

/-- C5: connect_rooms is a no-op when either room name is absent from the
owned set; when both are present it updates exactly room A's connection
entry at the given direction to reference room B — every other heap object,
every other connection entry of room A, and all remaining session state are
untouched, and in particular room B's entry at the opposite direction keeps
its prior value (no reverse connection is created). -/
theorem connect_rooms_spec (w : GameWorld) (nameA nameB : String) (d : Direction) :
    ((w.rooms nameA = none ∨ w.rooms nameB = none) →
      w.connect_rooms nameA nameB d = w) ∧
    (∀ i j r1, w.rooms nameA = some i → w.rooms nameB = some j → w.heap[i]? = some r1 →
      (w.connect_rooms nameA nameB d).heap[i]? =
        some { r1 with
               connections := fun d' => if d' = d then some j else r1.connections d' } ∧
      (∀ k, k ≠ i → (w.connect_rooms nameA nameB d).heap[k]? = w.heap[k]?) ∧
      (w.connect_rooms nameA nameB d).rooms = w.rooms ∧
      (w.connect_rooms nameA nameB d).current_room = w.current_room ∧
      (w.connect_rooms nameA nameB d).visited_rooms = w.visited_rooms ∧
      (w.connect_rooms nameA nameB d).current_event = w.current_event ∧
      (w.connect_rooms nameA nameB d).vars = w.vars ∧
      (w.connect_rooms nameA nameB d).actions = w.actions ∧
      (∀ r2, w.heap[j]? = some r2 →
        ∃ r2', (w.connect_rooms nameA nameB d).heap[j]? = some r2' ∧
          r2'.connections d.opposite = r2.connections d.opposite)) := by
  constructor
  · intro h
    rcases hA : w.rooms nameA with _ | i
    · simp [GameWorld.connect_rooms, hA]
    · rcases hB : w.rooms nameB with _ | j
      · simp [GameWorld.connect_rooms, hA, hB]
      · rcases h with h | h
        · rw [hA] at h; exact Option.noConfusion h
        · rw [hB] at h; exact Option.noConfusion h
  · intro i j r1 hA hB hr1
    have hconn : w.connect_rooms nameA nameB d =
        { w with
          heap := w.heap.set i
            ({ r1 with
               connections := fun d' => if d' = d then some j else r1.connections d' }) } := by
      simp [GameWorld.connect_rooms, hA, hB, hr1]
    rw [hconn]
    have hi : i < w.heap.length := lt_length_of_getHeap w.heap i r1 hr1
    refine ⟨getHeap_set_eq _ _ _ hi, fun k hk => getHeap_set_ne _ _ _ _ hk,
      rfl, rfl, rfl, rfl, rfl, rfl, ?_⟩
    intro r2 hr2
    by_cases hij : j = i
    · subst hij
      refine ⟨_, getHeap_set_eq _ _ _ hi, ?_⟩
      have : r2 = r1 := by rw [hr1] at hr2; exact ((Option.some.injEq _ _).mp hr2).symm
      subst this
      simp [opposite_ne d]
    · exact ⟨r2, by rw [getHeap_set_ne _ _ _ _ hij]; exact hr2, rfl⟩

/-- C5 witness: on the concrete two-room world, connecting an absent name
is a no-op, and connecting A south to B sets exactly that entry while B's
north entry stays empty. -/
theorem connect_rooms_spec_witness :
    c2World.connect_rooms "A" "Z" Direction.south = c2World ∧
    (c2World.connect_rooms "A" "B" Direction.south).heap[0]? =
      some { roomA with
             connections := fun d' =>
               if d' = Direction.south then some 1 else roomA.connections d' } ∧
    (c2World.connect_rooms "A" "B" Direction.south).heap[1]? = c2World.heap[1]? := by
  refine ⟨(connect_rooms_spec c2World "A" "Z" Direction.south).1 (Or.inr rfl), ?_, ?_⟩
  · exact ((connect_rooms_spec c2World "A" "B" Direction.south).2 0 1 roomA
      rfl rfl rfl).1
  · exact ((connect_rooms_spec c2World "A" "B" Direction.south).2 0 1 roomA
      rfl rfl rfl).2.1 1 (by decide)

/-! ## C8: adding the first room -/

/-- C8: adding the first room to a freshly initialized (empty) world makes
that room the current room, makes its canon event the active event with
canon flag true, and records the room's name as the first (and only) entry
of the visitation history — whether or not the initial action-generation
call succeeds. -/
theorem add_room_first_spec (R : List String) (V : Vars) (g : Generator) (room : Room) :
    (resState ((GameWorld.init R V).add_room g room)).current_room = some 0 ∧
    (resState ((GameWorld.init R V).add_room g room)).heap[0]? = some room ∧
    (resState ((GameWorld.init R V).add_room g room)).rooms room.name = some 0 ∧
    (resState ((GameWorld.init R V).add_room g room)).current_event =
      some { event := room.canon_event, is_canon := true } ∧
    (resState ((GameWorld.init R V).add_room g room)).visited_rooms = [room.name] := by
  cases h : g.gen_actions room (some { event := room.canon_event, is_canon := true }) V with
  | error e =>
    simp [GameWorld.add_room, GameWorld.init, GameWorld.generate_actions, resState, h]
  | ok acts =>
    simp [GameWorld.add_room, GameWorld.init, GameWorld.generate_actions, resState, h]

/-! ## C10: adding a later room is a pure rooms-dict update -/

/-- A third room used to extend the two-room world. -/
def roomC : Room := mkRoom "C" "room c" "" "event C"

/-- C10: when a current room is already set, add_room completes without any
generator call, binds the new room's name in the rooms dict (overwriting
any prior binding of that name), and leaves every other binding, every
existing room object, the current room, the current event, the visitation
history, the seen events, the variable store and the action set unchanged. -/
theorem add_room_frame (w : GameWorld) (g : Generator) (room : Room) (cid : Nat)
    (h : w.current_room = some cid) :
    raised (w.add_room g room) = false ∧
    (resState (w.add_room g room)).rooms room.name = some w.heap.length ∧
    (resState (w.add_room g room)).heap[w.heap.length]? = some room ∧
    (∀ n, n ≠ room.name → (resState (w.add_room g room)).rooms n = w.rooms n) ∧
    (∀ i, i < w.heap.length → (resState (w.add_room g room)).heap[i]? = w.heap[i]?) ∧
    (resState (w.add_room g room)).current_room = w.current_room ∧
    (resState (w.add_room g room)).current_event = w.current_event ∧
    (resState (w.add_room g room)).visited_rooms = w.visited_rooms ∧
    (resState (w.add_room g room)).seen_events = w.seen_events ∧
    (resState (w.add_room g room)).vars = w.vars ∧
    (resState (w.add_room g room)).actions = w.actions := by
  have hadd : w.add_room g room =
      .ok { w with heap := w.heap ++ [room],
                   rooms := fun n => if n = room.name then some w.heap.length else w.rooms n } := by
    simp [GameWorld.add_room, h]
  rw [hadd]
  refine ⟨rfl, by simp [resState], List.getElem?_concat_length w.heap room,
    fun n hn => by simp [resState, hn], fun i hi => List.getElem?_append_left hi,
    rfl, rfl, rfl, rfl, rfl, rfl⟩

/-- C10 witness: adding room C to the two-room world (current room set)
returns normally, binds C, and leaves the current room and action set as
they were. -/
theorem add_room_frame_witness :
    raised (c2World.add_room genOk roomC) = false ∧
    (resState (c2World.add_room genOk roomC)).rooms "C" = some 2 ∧
    (resState (c2World.add_room genOk roomC)).current_room = c2World.current_room ∧
    (resState (c2World.add_room genOk roomC)).actions = c2World.actions := by
  have h := add_room_frame c2World genOk roomC 0 rfl
  exact ⟨h.1, h.2.1, h.2.2.2.2.2.1, h.2.2.2.2.2.2.2.2.2.2⟩

/-! ## C9: the structural invariant -/

/-- Transfer well-formedness to a state with the same heap and room dict
whose current room is still covered. -/
theorem wf_of_fields (w w' : GameWorld) (hheap : w'.heap = w.heap)
    (hrooms : w'.rooms = w.rooms) (hwf : w.Wf)
    (hcur : ∀ i, w'.current_room = some i → ∃ n, w.rooms n = some i) : w'.Wf := by
  obtain ⟨H1, H2, H3⟩ := hwf
  refine ⟨?_, ?_, ?_⟩
  · intro n i h
    rw [hrooms] at h
    rw [hheap]
    exact H1 n i h
  · intro i h
    rw [hrooms]
    exact hcur i h
  · intro n i r d j h1 h2 h3
    rw [hrooms] at h1 ⊢
    rw [hheap] at h2
    exact H3 n i r d j h1 h2 h3

theorem wf_connect_rooms (w : GameWorld) (hwf : w.Wf) (nameA nameB : String) (d : Direction) :
    (w.connect_rooms nameA nameB d).Wf := by
  obtain ⟨H1, H2, H3⟩ := hwf
  rcases hA : w.rooms nameA with _ | i
  · simpa [GameWorld.connect_rooms, hA] using ⟨H1, H2, H3⟩
  rcases hB : w.rooms nameB with _ | j
  · simpa [GameWorld.connect_rooms, hA, hB] using ⟨H1, H2, H3⟩
  rcases hr1 : w.heap[i]? with _ | r1
  · simpa [GameWorld.connect_rooms, hA, hB, hr1] using ⟨H1, H2, H3⟩
  have hconn : w.connect_rooms nameA nameB d =
      { w with
        heap := w.heap.set i
          ({ r1 with
             connections := fun d' => if d' = d then some j else r1.connections d' }) } := by
    simp [GameWorld.connect_rooms, hA, hB, hr1]
  rw [hconn]
  refine ⟨?_, ?_, ?_⟩
  · intro n k h
    rw [List.length_set]
    exact H1 n k h
  · exact H2
  · intro n i' r d' j' h1 h2 h3
    by_cases hii : i' = i
    · subst hii
      rw [getHeap_set_eq _ _ _ (lt_length_of_getHeap w.heap i' r1 hr1)] at h2
      have hr : r = { r1 with
          connections := fun d' => if d' = d then some j else r1.connections d' } :=
        ((Option.some.injEq _ _).mp h2).symm
      subst hr
      by_cases hdd : d' = d
      · have : some j = some j' := by
          have := h3
          simpa [hdd] using this
        exact this ▸ ⟨nameB, hB⟩
      · have h3' : r1.connections d' = some j' := by
          simpa [hdd] using h3
        exact H3 n i' r1 d' j' h1 hr1 h3'
    · rw [getHeap_set_ne _ _ _ _ hii] at h2
      exact H3 n i' r d' j' h1 h2 h3

theorem wf_update_variables (w : GameWorld) (hwf : w.Wf) (a : Action) :
    (w.update_variables a).Wf :=
  wf_of_fields w (w.update_variables a) rfl rfl hwf (fun i h => hwf.2.1 i h)

theorem wf_move (w : GameWorld) (hwf : w.Wf) (g : Generator) (d : Direction) :
    (resState (GameUI.move w g d)).Wf := by
  obtain ⟨H1, H2, H3⟩ := hwf
  rcases hc : w.current_room with _ | cid
  · simpa [GameUI.move, hc, resState] using ⟨H1, H2, H3⟩
  rcases hcur : w.heap[cid]? with _ | cur
  · simpa [GameUI.move, hc, hcur, resState] using ⟨H1, H2, H3⟩
  rcases hconn : cur.connections d with _ | nid
  · simpa [GameUI.move, hc, hconn, hcur, resState] using ⟨H1, H2, H3⟩
  rcases hnr : w.heap[nid]? with _ | nr
  · simpa [GameUI.move, hc, hcur, hconn, hnr, resState] using ⟨H1, H2, H3⟩
  have hmem : ∃ n, w.rooms n = some nid := by
    obtain ⟨n, hn⟩ := H2 cid hc
    exact H3 n cid cur d nid hn hcur hconn
  have hwf' := And.intro H1 (And.intro H2 H3)
  have hcover : ∀ (w' : GameWorld), w'.current_room = some nid →
      ∀ i, w'.current_room = some i → ∃ n, w.rooms n = some i := by
    intro w' hw' i h
    rw [hw'] at h
    cases h
    exact hmem
  rcases hev : GameWorld.get_event
      { w with current_room := some nid, visited_rooms := w.visited_rooms ++ [nr.name] }
      g nr with e | ⟨ev, isc⟩
  · have hres : resState (GameUI.move w g d) =
        { w with current_room := some nid,
                 visited_rooms := w.visited_rooms ++ [nr.name] } := by
      simp [GameUI.move, hc, hcur, hconn, hnr, hev, resState]
    rw [hres]
    exact wf_of_fields w _ rfl rfl hwf' (hcover _ rfl)
  · rcases hga : g.gen_actions nr (some { event := ev, is_canon := isc }) w.vars
        with e' | acts
    · have hres : resState (GameUI.move w g d) =
          { w with current_room := some nid,
                   visited_rooms := w.visited_rooms ++ [nr.name],
                   current_event := some { event := ev, is_canon := isc },
                   seen_events := w.seen_events ++ [SeenEvent.eventClass] } := by
        simp [GameUI.move, hc, hcur, hconn, hnr, hev, GameWorld.generate_actions,
          hga, resState]
      rw [hres]
      exact wf_of_fields w _ rfl rfl hwf' (hcover _ rfl)
    · have hres : resState (GameUI.move w g d) =
          { w with current_room := some nid,
                   visited_rooms := w.visited_rooms ++ [nr.name],
                   current_event := some { event := ev, is_canon := isc },
                   seen_events := w.seen_events ++ [SeenEvent.eventClass],
                   actions := some acts } := by
        simp [GameUI.move, hc, hcur, hconn, hnr, hev, GameWorld.generate_actions,
          hga, resState]
      rw [hres]
      exact wf_of_fields w _ rfl rfl hwf' (hcover _ rfl)

theorem wf_add_room_fresh (w : GameWorld) (hwf : w.Wf) (g : Generator) (room : Room)
    (hconn0 : room.connections = fun _ => none) (hfresh : w.rooms room.name = none) :
    (resState (w.add_room g room)).Wf := by
  obtain ⟨H1, H2, H3⟩ := hwf
  have hlen : (w.heap ++ [room]).length = w.heap.length + 1 := by
    rw [List.length_append]; rfl
  have hrooms1 : ∀ n i,
      (if n = room.name then some w.heap.length else w.rooms n) = some i →
      i < (w.heap ++ [room]).length := by
    intro n i h
    rw [hlen]
    by_cases hn : n = room.name
    · rw [if_pos hn] at h
      cases h
      exact Nat.lt_succ_self _
    · rw [if_neg hn] at h
      exact Nat.lt_succ_of_lt (H1 n i h)
  have hconns1 : ∀ n i r d j,
      (if n = room.name then some w.heap.length else w.rooms n) = some i →
      (w.heap ++ [room])[i]? = some r → r.connections d = some j →
      ∃ m, (if m = room.name then some w.heap.length else w.rooms m) = some j := by
    intro n i r d j h1 h2 h3
    by_cases hn : n = room.name
    · rw [if_pos hn] at h1
      cases h1
      rw [List.getElem?_concat_length] at h2
      have hr : r = room := ((Option.some.injEq _ _).mp h2).symm
      subst hr
      rw [hconn0] at h3
      exact Option.noConfusion h3
    · rw [if_neg hn] at h1
      rw [List.getElem?_append_left (H1 n i h1)] at h2
      obtain ⟨m, hm⟩ := H3 n i r d j h1 h2 h3
      refine ⟨m, ?_⟩
      have hmn : m ≠ room.name := by
        intro hh
        rw [hh, hfresh] at hm
        exact Option.noConfusion hm
      rw [if_neg hmn]
      exact hm
  rcases hc : w.current_room with _ | cid
  · have hwf2 : GameWorld.Wf
        { heap := w.heap ++ [room]
          rooms := fun n => if n = room.name then some w.heap.length else w.rooms n
          current_room := some w.heap.length
          original_room_visit_order := w.original_room_visit_order
          current_event := some { event := room.canon_event, is_canon := true }
          visited_rooms := w.visited_rooms ++ [room.name]
          seen_events := w.seen_events
          vars := w.vars
          actions := w.actions } := by
      refine ⟨hrooms1, ?_, hconns1⟩
      intro i h
      have hi : w.heap.length = i := by injection h
      cases hi
      exact ⟨room.name, if_pos rfl⟩
    rcases hg : g.gen_actions room (some { event := room.canon_event, is_canon := true })
        w.vars with e | acts
    · have hadd : resState (w.add_room g room) =
          { heap := w.heap ++ [room]
            rooms := fun n => if n = room.name then some w.heap.length else w.rooms n
            current_room := some w.heap.length
            original_room_visit_order := w.original_room_visit_order
            current_event := some { event := room.canon_event, is_canon := true }
            visited_rooms := w.visited_rooms ++ [room.name]
            seen_events := w.seen_events
            vars := w.vars
            actions := w.actions } := by
        simp [GameWorld.add_room, hc, GameWorld.generate_actions,
          List.getElem?_concat_length, hg, resState]
      rw [hadd]
      exact hwf2
    · have hadd : resState (w.add_room g room) =
          { heap := w.heap ++ [room]
            rooms := fun n => if n = room.name then some w.heap.length else w.rooms n
            current_room := some w.heap.length
            original_room_visit_order := w.original_room_visit_order
            current_event := some { event := room.canon_event, is_canon := true }
            visited_rooms := w.visited_rooms ++ [room.name]
            seen_events := w.seen_events
            vars := w.vars
            actions := some acts } := by
        simp [GameWorld.add_room, hc, GameWorld.generate_actions,
          List.getElem?_concat_length, hg, resState]
      rw [hadd]
      exact wf_of_fields _ _ rfl rfl hwf2 (fun i h => hwf2.2.1 i h)
  · have hadd : resState (w.add_room g room) =
        { w with
          heap := w.heap ++ [room]
          rooms := fun n => if n = room.name then some w.heap.length else w.rooms n } := by
      simp [GameWorld.add_room, hc, resState]
    rw [hadd]
    refine ⟨hrooms1, ?_, hconns1⟩
    intro i h
    have hci : w.current_room = some i := h
    rw [hc] at hci
    have hi : cid = i := by injection hci
    cases hi
    obtain ⟨n, hn⟩ := H2 cid hc
    refine ⟨n, ?_⟩
    have hnn : n ≠ room.name := by
      intro hh
      rw [hh, hfresh] at hn
      exact Option.noConfusion hn
    show (if n = room.name then some w.heap.length else w.rooms n) = some cid
    rw [if_neg hnn]
    exact hn

/-- Well-formedness of the one-room world built by the first add_room. -/
theorem wf_c9World1 : c9World1.Wf := by
  refine ⟨?_, ?_, ?_⟩
  · intro n i h
    have h' : (if n = "A" then some (0 : Nat) else none) = some i := h
    by_cases hn : n = "A"
    · rw [if_pos hn] at h'
      have hi : (0 : Nat) = i := by injection h'
      cases hi
      decide
    · rw [if_neg hn] at h'
      exact Option.noConfusion h'
  · intro i h
    have h' : some 0 = some i := h
    have hi : (0 : Nat) = i := by injection h'
    cases hi
    exact ⟨"A", by simp [c9World1, GameWorld.add_room, GameWorld.init, genOk,
      GameWorld.generate_actions, resState, mkRoom]⟩
  · intro n i r d j h1 h2 h3
    have h1' : (if n = "A" then some (0 : Nat) else none) = some i := h1
    by_cases hn : n = "A"
    · rw [if_pos hn] at h1'
      have hi : (0 : Nat) = i := by injection h1'
      cases hi
      have h2' : some (mkRoom "A" "room a" "" "event A") = some r := h2
      have hrm : mkRoom "A" "room a" "" "event A" = r := by injection h2'
      rw [← hrm] at h3
      exact Option.noConfusion h3
    · rw [if_neg hn] at h1'
      exact Option.noConfusion h1'

/-- C9 counterexample: the one-room world satisfies the invariant, but
adding a second room under the duplicate name A breaks it (the rooms dict
now binds A to the new object while the current room still references the
old one, which no longer belongs to the owned set): add_room does not
preserve the invariant. -/
theorem wf_preservation_counterexample : c9World1.Wf ∧ ¬ c9World2.Wf := by
  refine ⟨wf_c9World1, ?_⟩
  rintro ⟨-, h2, -⟩
  have hc : c9World2.current_room = some 0 := rfl
  obtain ⟨n, hn⟩ := h2 0 hc
  have hn' : (if n = "A" then some (1 : Nat)
      else if n = "A" then some (0 : Nat) else none) = some 0 := hn
  by_cases hna : n = "A"
  · rw [if_pos hna, Option.some.injEq] at hn'
    exact Nat.noConfusion hn'
  · rw [if_neg hna, if_neg hna] at hn'
    exact Option.noConfusion hn'

/-- C9 (amended): connect_rooms, move and update_variables preserve the
structural invariant unconditionally, and add_room preserves it whenever
the added room is freshly constructed (all connection entries empty, as
Room.__init__ guarantees) and its name is not already bound in the owned
set.  (The counterexample shows the freshness proviso is necessary.) -/
theorem wf_preservation (w : GameWorld) (g : Generator) (hwf : w.Wf) :
    (∀ nameA nameB d, (w.connect_rooms nameA nameB d).Wf) ∧
    (∀ d, (resState (GameUI.move w g d)).Wf) ∧
    (∀ a, (w.update_variables a).Wf) ∧
    (∀ room, room.connections = (fun _ => none) → w.rooms room.name = none →
      (resState (w.add_room g room)).Wf) :=
  ⟨fun nameA nameB d => wf_connect_rooms w hwf nameA nameB d,
    fun d => wf_move w hwf g d,
    fun a => wf_update_variables w hwf a,
    fun room h0 hf => wf_add_room_fresh w hwf g room h0 hf⟩

/-- Well-formedness of the concrete two-room world. -/
theorem wf_c2World : c2World.Wf := by
  refine ⟨?_, ?_, ?_⟩
  · intro n i h
    have hr : c2World.rooms n =
        (if n = "A" then some 0 else if n = "B" then some 1 else none) := rfl
    rw [hr] at h
    by_cases hA : n = "A"
    · rw [if_pos hA] at h
      cases h
      decide
    · rw [if_neg hA] at h
      by_cases hB : n = "B"
      · rw [if_pos hB] at h
        cases h
        decide
      · rw [if_neg hB] at h
        exact Option.noConfusion h
  · intro i h
    have hc : c2World.current_room = some 0 := rfl
    rw [hc] at h
    cases h
    exact ⟨"A", by simp [c2World]⟩
  · intro n i r d j h1 h2 h3
    have hr : c2World.rooms n =
        (if n = "A" then some 0 else if n = "B" then some 1 else none) := rfl
    rw [hr] at h1
    by_cases hA : n = "A"
    · rw [if_pos hA] at h1
      cases h1
      have hra : r = roomA := by
        have : c2World.heap[0]? = some roomA := rfl
        rw [this] at h2
        exact ((Option.some.injEq _ _).mp h2).symm
      subst hra
      have hconn : roomA.connections d = if d = Direction.north then some 1 else none := rfl
      rw [hconn] at h3
      by_cases hd : d = Direction.north
      · rw [if_pos hd] at h3
        cases h3
        exact ⟨"B", by simp [c2World]⟩
      · rw [if_neg hd] at h3
        exact Option.noConfusion h3
    · rw [if_neg hA] at h1
      by_cases hB : n = "B"
      · rw [if_pos hB] at h1
        cases h1
        have hrb : r = roomB := by
          have : c2World.heap[1]? = some roomB := rfl
          rw [this] at h2
          exact ((Option.some.injEq _ _).mp h2).symm
        subst hrb
        have hconn : roomB.connections d = none := rfl
        rw [hconn] at h3
        exact Option.noConfusion h3
      · rw [if_neg hB] at h1
        exact Option.noConfusion h1

/-- C9 witness: the amended preservation statement instantiated on the
well-formed two-room world, for each of the four operations. -/
theorem wf_preservation_witness :
    (c2World.connect_rooms "A" "B" Direction.south).Wf ∧
    (resState (GameUI.move c2World genFail Direction.north)).Wf ∧
    (c2World.update_variables c3Action).Wf ∧
    (resState (c2World.add_room genFail roomC)).Wf := by
  have h := wf_preservation c2World genFail wf_c2World
  exact ⟨h.1 "A" "B" Direction.south, h.2.1 Direction.north, h.2.2.1 c3Action,
    h.2.2.2 roomC rfl rfl⟩

/-! ## C6: parse_variables -/

/-- There is a directed connection, at direction `d`, from a room object
named `pn` to a room object named `cn` (through the heap references the
layout traversal follows). -/
def EdgeName (w : GameWorld) (pn cn : String) (d : Direction) : Prop :=
  ∃ (i : Nat) (rp : Room) (j : Nat) (rc : Room),
    w.heap[i]? = some rp ∧ rp.name = pn ∧ rp.connections d = some j ∧
      w.heap[j]? = some rc ∧ rc.name = cn

/-- The coordinate (x, y) lies within the four extents. -/
def extentsBound (mx Mx my My : Option Int) (x y : Int) : Prop :=
  (∃ a, mx = some a ∧ a ≤ x) ∧ (∃ b, Mx = some b ∧ x ≤ b) ∧
  (∃ c, my = some c ∧ c ≤ y) ∧ (∃ e, My = some e ∧ y ≤ e)

theorem updMin_keeps (o : Option Int) (v x : Int) (h : ∃ a, o = some a ∧ a ≤ x) :
    ∃ a, updMin o v = some a ∧ a ≤ x := by
  obtain ⟨a, ho, hax⟩ := h
  rw [ho]
  exact ⟨min a v, rfl, le_trans (min_le_left a v) hax⟩

theorem updMax_keeps (o : Option Int) (v x : Int) (h : ∃ b, o = some b ∧ x ≤ b) :
    ∃ b, updMax o v = some b ∧ x ≤ b := by
  obtain ⟨b, ho, hxb⟩ := h
  rw [ho]
  exact ⟨max b v, rfl, le_trans hxb (le_max_left b v)⟩

theorem updMin_covers (o : Option Int) (v : Int) : ∃ a, updMin o v = some a ∧ a ≤ v := by
  cases o with
  | none => exact ⟨v, rfl, le_refl v⟩
  | some m => exact ⟨min m v, rfl, min_le_right m v⟩

theorem updMax_covers (o : Option Int) (v : Int) : ∃ b, updMax o v = some b ∧ v ≤ b := by
  cases o with
  | none => exact ⟨v, rfl, le_refl v⟩
  | some m => exact ⟨max m v, rfl, le_max_right m v⟩

theorem extentsBound_widen (mx Mx my My : Option Int) (nx ny x y : Int)
    (h : extentsBound mx Mx my My x y) :
    extentsBound (updMin mx nx) (updMax Mx nx) (updMin my ny) (updMax My ny) x y := by
  obtain ⟨h1, h2, h3, h4⟩ := h
  exact ⟨updMin_keeps mx nx x h1, updMax_keeps Mx nx x h2,
    updMin_keeps my ny y h3, updMax_keeps My ny y h4⟩

theorem extentsBound_new (mx Mx my My : Option Int) (nx ny : Int) :
    extentsBound (updMin mx nx) (updMax Mx nx) (updMin my ny) (updMax My ny) nx ny :=
  ⟨updMin_covers mx nx, updMax_covers Mx nx, updMin_covers my ny, updMax_covers My ny⟩

/-- The loop invariant of the layout BFS, for a traversal rooted at the room
named `rootName`:
the root's entry, at (0, 0), heads the grid-position dict; no name is ever
assigned twice; every assigned name has been marked visited; every assigned
coordinate lies within the current extents; every entry is either the root
at the origin or the image of an already-assigned parent entry through a
connection, displaced by that direction's offset; and every queued element
references a live room object whose name is already assigned at the queued
coordinate. -/
structure LInv (w : GameWorld) (rootName : String) (s : LayoutState) : Prop where
  head : ∃ t, s.grid_positions = (rootName, 0, 0) :: t
  keys_nodup : (s.grid_positions.map (fun e => e.1)).Nodup
  keys_visited : ∀ e ∈ s.grid_positions, e.1 ∈ s.visited
  bounds : ∀ e ∈ s.grid_positions, extentsBound s.min_x s.max_x s.min_y s.max_y e.2.1 e.2.2
  parent : ∀ e ∈ s.grid_positions,
    (e.1 = rootName ∧ e.2.1 = 0 ∧ e.2.2 = 0) ∨
    ∃ pe d, pe ∈ s.grid_positions ∧ EdgeName w pe.1 e.1 d ∧
      e.2.1 = pe.2.1 + (offsets d).1 ∧ e.2.2 = pe.2.2 + (offsets d).2
  queue_ok : ∀ q ∈ s.queue, ∃ r, w.heap[q.1]? = some r ∧ (r.name, q.2.1, q.2.2) ∈ s.grid_positions

theorem processNeighbor_inv (w : GameWorld) (rootName : String) (room : Room)
    (x y : Int) (rid : Nat) (hrid : w.heap[rid]? = some room) (d : Direction)
    (s : LayoutState) (hinv : LInv w rootName s)
    (hparent : (room.name, x, y) ∈ s.grid_positions) :
    LInv w rootName (processNeighbor w room x y s d) ∧
    (room.name, x, y) ∈ (processNeighbor w room x y s d).grid_positions := by
  rcases hconn : room.connections d with _ | nid
  · have hstep : processNeighbor w room x y s d = s := by
      simp [processNeighbor, hconn]
    rw [hstep]
    exact ⟨hinv, hparent⟩
  rcases hnr : w.heap[nid]? with _ | nr
  · have hstep : processNeighbor w room x y s d = s := by
      simp [processNeighbor, hconn, hnr]
    rw [hstep]
    exact ⟨hinv, hparent⟩
  by_cases hvis : nr.name ∈ s.visited
  · have hstep : processNeighbor w room x y s d = s := by
      simp [processNeighbor, hconn, hnr, hvis]
    rw [hstep]
    exact ⟨hinv, hparent⟩
  · have hstep : processNeighbor w room x y s d =
        { grid_positions := s.grid_positions ++ [(nr.name, x + (offsets d).1, y + (offsets d).2)]
          min_x := updMin s.min_x (x + (offsets d).1)
          max_x := updMax s.max_x (x + (offsets d).1)
          min_y := updMin s.min_y (y + (offsets d).2)
          max_y := updMax s.max_y (y + (offsets d).2)
          visited := s.visited ++ [nr.name]
          queue := s.queue ++ [(nid, x + (offsets d).1, y + (offsets d).2)] } := by
      simp [processNeighbor, hconn, hnr, hvis]
    rw [hstep]
    obtain ⟨Ihead, Inodup, Ivis, Ibnd, Ipar, Iq⟩ := hinv
    constructor
    · constructor
      · obtain ⟨t, ht⟩ := Ihead
        exact ⟨t ++ [(nr.name, x + (offsets d).1, y + (offsets d).2)], by
          rw [ht]; rfl⟩
      · have hnotkey : nr.name ∉ s.grid_positions.map (fun e => e.1) := by
          intro hmem
          obtain ⟨e, he, hee⟩ := List.mem_map.mp hmem
          exact hvis (hee ▸ Ivis e he)
        simp only [List.map_append, List.map_cons, List.map_nil]
        rw [List.nodup_append]
        exact ⟨Inodup, List.nodup_singleton _,
          by intro a ha hb; simp at hb; rw [hb] at ha; exact hnotkey ha⟩
      · intro e he
        rcases List.mem_append.mp he with hold | hnew
        · exact List.mem_append_left _ (Ivis e hold)
        · simp at hnew
          rw [hnew]
          exact List.mem_append_right _ (by simp)
      · intro e he
        rcases List.mem_append.mp he with hold | hnew
        · exact extentsBound_widen _ _ _ _ _ _ _ _ (Ibnd e hold)
        · simp at hnew
          rw [hnew]
          exact extentsBound_new _ _ _ _ _ _
      · intro e he
        rcases List.mem_append.mp he with hold | hnew
        · rcases Ipar e hold with hroot | ⟨pe, d', hpe, hedge, hx, hy⟩
          · exact Or.inl hroot
          · exact Or.inr ⟨pe, d', List.mem_append_left _ hpe, hedge, hx, hy⟩
        · simp at hnew
          rw [hnew]
          exact Or.inr ⟨(room.name, x, y), d, List.mem_append_left _ hparent,
            ⟨rid, room, nid, nr, hrid, rfl, hconn, hnr, rfl⟩, rfl, rfl⟩
      · intro q hq
        rcases List.mem_append.mp hq with hold | hnew
        · obtain ⟨r, hr, hrm⟩ := Iq q hold
          exact ⟨r, hr, List.mem_append_left _ hrm⟩
        · simp at hnew
          rw [hnew]
          exact ⟨nr, hnr, List.mem_append_right _ (by simp)⟩
    · exact List.mem_append_left _ hparent

theorem foldl_processNeighbor_inv (w : GameWorld) (rootName : String) (room : Room)
    (x y : Int) (rid : Nat) (hrid : w.heap[rid]? = some room) (ds : List Direction) :
    ∀ s : LayoutState, LInv w rootName s → (room.name, x, y) ∈ s.grid_positions →
      LInv w rootName (ds.foldl (processNeighbor w room x y) s) := by
  induction ds with
  | nil => exact fun s hinv _ => hinv
  | cons d rest ih =>
    intro s hinv hparent
    obtain ⟨hinv', hparent'⟩ := processNeighbor_inv w rootName room x y rid hrid d s hinv hparent
    exact ih (processNeighbor w room x y s d) hinv' hparent'

theorem bfsLoop_inv (w : GameWorld) (rootName : String) (fuel : Nat) :
    ∀ s : LayoutState, LInv w rootName s → LInv w rootName (bfsLoop w fuel s) := by
  induction fuel with
  | zero => exact fun s hinv => hinv
  | succ n ih =>
    intro s hinv
    obtain ⟨Ihead, Inodup, Ivis, Ibnd, Ipar, Iq⟩ := hinv
    rcases hq : s.queue with _ | ⟨⟨rid, x, y⟩, rest⟩
    · simpa [bfsLoop, hq] using ⟨Ihead, Inodup, Ivis, Ibnd, Ipar, Iq⟩
    · have hinv1 : LInv w rootName { s with queue := rest } :=
        ⟨Ihead, Inodup, Ivis, Ibnd, Ipar,
          fun q hqm => Iq q (by rw [hq]; exact List.mem_cons_of_mem _ hqm)⟩
      rcases hrid : w.heap[rid]? with _ | room
      · have hstep : bfsLoop w (n + 1) s = bfsLoop w n { s with queue := rest } := by
          simp [bfsLoop, hq, hrid]
        rw [hstep]
        exact ih _ hinv1
      · have hmem : (room.name, x, y) ∈ s.grid_positions := by
          obtain ⟨r, hr, hrm⟩ := Iq (rid, x, y) (by rw [hq]; exact List.mem_cons_self _ _)
          rw [hrid] at hr
          have : room = r := by injection hr
          rw [this]
          exact hrm
        have hstep : bfsLoop w (n + 1) s =
            bfsLoop w n (directionOrder.foldl (processNeighbor w room x y)
              { s with queue := rest }) := by
          simp [bfsLoop, hq, hrid]
        rw [hstep]
        exact ih _ (foldl_processNeighbor_inv w rootName room x y rid hrid
          directionOrder { s with queue := rest } hinv1 hmem)

/-- Entry `e` of the grid-position dict still awaits expansion: some queued
element references a live room object bearing `e`'s name. -/
def pendingIn (w : GameWorld) (qs : List (Nat × Int × Int)) (e : String × Int × Int) : Prop :=
  ∃ q, q ∈ qs ∧ ∃ r : Room, w.heap[q.1]? = some r ∧ r.name = e.1

/-- Entry `e` of the grid-position dict has been expanded: some live room
object bearing `e`'s name has every connection target's name already in the
visited set. -/
def processedFor (w : GameWorld) (vis : List String) (e : String × Int × Int) : Prop :=
  ∃ (i : Nat) (r : Room), w.heap[i]? = some r ∧ r.name = e.1 ∧
    ∀ d j rc, r.connections d = some j → w.heap[j]? = some rc → rc.name ∈ vis

/-- The coverage invariant of the layout BFS: the visited set never repeats
a name, every visited name is the name of some heap room, every visited
name has an entry in the grid-position dict, and every entry is either
still pending in the queue or already fully expanded. -/
structure CInv (w : GameWorld) (s : LayoutState) : Prop where
  visited_nodup : s.visited.Nodup
  visited_names : ∀ n ∈ s.visited, ∃ r, r ∈ w.heap ∧ r.name = n
  visited_keys : ∀ n ∈ s.visited, ∃ e, e ∈ s.grid_positions ∧ e.1 = n
  coverage : ∀ e ∈ s.grid_positions, pendingIn w s.queue e ∨ processedFor w s.visited e

/-- A duplicate-free list of room names drawn from the heap is no longer
than the heap. -/
theorem visited_length_le (w : GameWorld) (vis : List String) (hnd : vis.Nodup)
    (hnames : ∀ n ∈ vis, ∃ r, r ∈ w.heap ∧ r.name = n) : vis.length ≤ w.heap.length := by
  have hsub : vis ⊆ w.heap.map Room.name := by
    intro n hn
    obtain ⟨r, hr, hrn⟩ := hnames n hn
    exact List.mem_map.mpr ⟨r, hr, hrn⟩
  calc vis.length = vis.toFinset.card := (List.toFinset_card_of_nodup hnd).symm
    _ ≤ ((w.heap.map Room.name).toFinset).card := by
        apply Finset.card_le_card
        intro n hn
        rw [List.mem_toFinset] at hn ⊢
        exact hsub hn
    _ ≤ (w.heap.map Room.name).length := List.toFinset_card_le _
    _ = w.heap.length := by simp

theorem pendingIn_mono (w : GameWorld) (qs qs' : List (Nat × Int × Int))
    (e : String × Int × Int) (hsub : ∀ q ∈ qs, q ∈ qs') (h : pendingIn w qs e) :
    pendingIn w qs' e := by
  obtain ⟨q, hq, r, hr, hrn⟩ := h
  exact ⟨q, hsub q hq, r, hr, hrn⟩

/-- Effect of one direction step on the coverage data: the visited set
stays duplicate-free, keeps naming heap rooms with dict entries, old
visited names / queued elements / entries persist, new entries are pending,
the step's own connection target (if any) ends up visited, and the queue
and visited set grow by the same amount. -/
theorem processNeighbor_cover (w : GameWorld) (room : Room) (x y : Int) (d : Direction)
    (s : LayoutState)
    (hnd : s.visited.Nodup)
    (hnames : ∀ n ∈ s.visited, ∃ r, r ∈ w.heap ∧ r.name = n)
    (hkeys : ∀ n ∈ s.visited, ∃ e, e ∈ s.grid_positions ∧ e.1 = n) :
    (processNeighbor w room x y s d).visited.Nodup ∧
    (∀ n ∈ (processNeighbor w room x y s d).visited, ∃ r, r ∈ w.heap ∧ r.name = n) ∧
    (∀ n ∈ (processNeighbor w room x y s d).visited,
      ∃ e, e ∈ (processNeighbor w room x y s d).grid_positions ∧ e.1 = n) ∧
    (∀ n ∈ s.visited, n ∈ (processNeighbor w room x y s d).visited) ∧
    (∀ q ∈ s.queue, q ∈ (processNeighbor w room x y s d).queue) ∧
    (∀ e ∈ s.grid_positions, e ∈ (processNeighbor w room x y s d).grid_positions) ∧
    (∀ e ∈ (processNeighbor w room x y s d).grid_positions,
      e ∈ s.grid_positions ∨ pendingIn w (processNeighbor w room x y s d).queue e) ∧
    (∀ j rc, room.connections d = some j → w.heap[j]? = some rc →
      rc.name ∈ (processNeighbor w room x y s d).visited) ∧
    ((processNeighbor w room x y s d).queue.length + s.visited.length =
      s.queue.length + (processNeighbor w room x y s d).visited.length) := by
  rcases hconn : room.connections d with _ | nid
  · have hstep : processNeighbor w room x y s d = s := by
      simp [processNeighbor, hconn]
    rw [hstep]
    refine ⟨hnd, hnames, hkeys, fun n hn => hn, fun q hq => hq, fun e he => he,
      fun e he => Or.inl he, ?_, rfl⟩
    intro j rc hj _
    exact Option.noConfusion hj
  rcases hnr : w.heap[nid]? with _ | nr
  · have hstep : processNeighbor w room x y s d = s := by
      simp [processNeighbor, hconn, hnr]
    rw [hstep]
    refine ⟨hnd, hnames, hkeys, fun n hn => hn, fun q hq => hq, fun e he => he,
      fun e he => Or.inl he, ?_, rfl⟩
    intro j rc hj hrc
    have hjn : nid = j := by injection hj
    rw [← hjn] at hrc
    rw [hnr] at hrc
    exact Option.noConfusion hrc
  by_cases hvis : nr.name ∈ s.visited
  · have hstep : processNeighbor w room x y s d = s := by
      simp [processNeighbor, hconn, hnr, hvis]
    rw [hstep]
    refine ⟨hnd, hnames, hkeys, fun n hn => hn, fun q hq => hq, fun e he => he,
      fun e he => Or.inl he, ?_, rfl⟩
    intro j rc hj hrc
    have hjn : nid = j := by injection hj
    rw [← hjn] at hrc
    rw [hnr] at hrc
    have hrc' : nr = rc := by injection hrc
    rw [← hrc']
    exact hvis
  · have hstep : processNeighbor w room x y s d =
        { grid_positions := s.grid_positions ++ [(nr.name, x + (offsets d).1, y + (offsets d).2)]
          min_x := updMin s.min_x (x + (offsets d).1)
          max_x := updMax s.max_x (x + (offsets d).1)
          min_y := updMin s.min_y (y + (offsets d).2)
          max_y := updMax s.max_y (y + (offsets d).2)
          visited := s.visited ++ [nr.name]
          queue := s.queue ++ [(nid, x + (offsets d).1, y + (offsets d).2)] } := by
      simp [processNeighbor, hconn, hnr, hvis]
    rw [hstep]
    refine ⟨?_, ?_, ?_, fun n hn => List.mem_append_left _ hn,
      fun q hq => List.mem_append_left _ hq, fun e he => List.mem_append_left _ he,
      ?_, ?_, ?_⟩
    · rw [List.nodup_append]
      refine ⟨hnd, List.nodup_singleton _, ?_⟩
      intro a ha hb
      simp at hb
      rw [hb] at ha
      exact hvis ha
    · intro n hn
      rcases List.mem_append.mp hn with hold | hnew
      · exact hnames n hold
      · simp at hnew
        rw [hnew]
        exact ⟨nr, List.getElem?_mem hnr, rfl⟩
    · intro n hn
      rcases List.mem_append.mp hn with hold | hnew
      · obtain ⟨e, he, hen⟩ := hkeys n hold
        exact ⟨e, List.mem_append_left _ he, hen⟩
      · simp at hnew
        rw [hnew]
        exact ⟨(nr.name, x + (offsets d).1, y + (offsets d).2),
          List.mem_append_right _ (by simp), rfl⟩
    · intro e he
      rcases List.mem_append.mp he with hold | hnew
      · exact Or.inl hold
      · simp at hnew
        refine Or.inr ⟨(nid, x + (offsets d).1, y + (offsets d).2),
          List.mem_append_right _ (by simp), nr, hnr, ?_⟩
        rw [hnew]
    · intro j rc hj hrc
      have hjn : nid = j := by injection hj
      rw [← hjn] at hrc
      rw [hnr] at hrc
      have hrc' : nr = rc := by injection hrc
      rw [← hrc']
      exact List.mem_append_right _ (by simp)
    · simp only [List.length_append, List.length_cons, List.length_nil]
      omega

/-- The coverage data after folding a list of directions over one dequeued
room: every direction in the list has its connection target visited, and
the bookkeeping of `processNeighbor_cover` accumulates. -/
theorem foldl_processNeighbor_cover (w : GameWorld) (room : Room) (x y : Int) :
    ∀ (ds : List Direction) (s : LayoutState),
      s.visited.Nodup →
      (∀ n ∈ s.visited, ∃ r, r ∈ w.heap ∧ r.name = n) →
      (∀ n ∈ s.visited, ∃ e, e ∈ s.grid_positions ∧ e.1 = n) →
      (ds.foldl (processNeighbor w room x y) s).visited.Nodup ∧
      (∀ n ∈ (ds.foldl (processNeighbor w room x y) s).visited, ∃ r, r ∈ w.heap ∧ r.name = n) ∧
      (∀ n ∈ (ds.foldl (processNeighbor w room x y) s).visited,
        ∃ e, e ∈ (ds.foldl (processNeighbor w room x y) s).grid_positions ∧ e.1 = n) ∧
      (∀ n ∈ s.visited, n ∈ (ds.foldl (processNeighbor w room x y) s).visited) ∧
      (∀ q ∈ s.queue, q ∈ (ds.foldl (processNeighbor w room x y) s).queue) ∧
      (∀ e ∈ s.grid_positions, e ∈ (ds.foldl (processNeighbor w room x y) s).grid_positions) ∧
      (∀ e ∈ (ds.foldl (processNeighbor w room x y) s).grid_positions,
        e ∈ s.grid_positions ∨
          pendingIn w (ds.foldl (processNeighbor w room x y) s).queue e) ∧
      (∀ d ∈ ds, ∀ j rc, room.connections d = some j → w.heap[j]? = some rc →
        rc.name ∈ (ds.foldl (processNeighbor w room x y) s).visited) ∧
      ((ds.foldl (processNeighbor w room x y) s).queue.length + s.visited.length =
        s.queue.length + (ds.foldl (processNeighbor w room x y) s).visited.length) := by
  intro ds
  induction ds with
  | nil =>
    intro s hnd hnames hkeys
    exact ⟨hnd, hnames, hkeys, fun n hn => hn, fun q hq => hq, fun e he => he,
      fun e he => Or.inl he, fun d hd => absurd hd (List.not_mem_nil d), rfl⟩
  | cons d rest ih =>
    intro s hnd hnames hkeys
    simp only [List.foldl_cons]
    obtain ⟨P1, P2, P3, P4, P5, P6, P7, P8, P9⟩ :=
      processNeighbor_cover w room x y d s hnd hnames hkeys
    obtain ⟨O1, O2, O3, O4, O5, O6, O7, O8, O9⟩ :=
      ih (processNeighbor w room x y s d) P1 P2 P3
    refine ⟨O1, O2, O3, fun n hn => O4 n (P4 n hn), fun q hq => O5 q (P5 q hq),
      fun e he => O6 e (P6 e he), ?_, ?_, ?_⟩
    · intro e he
      rcases O7 e he with hmid | hpend
      · rcases P7 e hmid with hold | hpend0
        · exact Or.inl hold
        · exact Or.inr (pendingIn_mono w _ _ e O5 hpend0)
      · exact Or.inr hpend
    · intro d0 hd0 j rc hj hrc
      rcases List.mem_cons.mp hd0 with hhead | htail
      · rw [hhead] at hj
        exact O4 _ (P8 j rc hj hrc)
      · exact O8 d0 htail j rc hj hrc
    · omega

/-- Every direction is in the iteration order of the connections dict. -/
theorem mem_directionOrder (d : Direction) : d ∈ directionOrder := by
  cases d <;> decide

/-- The layout BFS preserves the coverage invariant. -/
theorem bfsLoop_cover (w : GameWorld) : ∀ (fuel : Nat) (s : LayoutState),
    CInv w s → CInv w (bfsLoop w fuel s) := by
  intro fuel
  induction fuel with
  | zero => exact fun s h => h
  | succ n ih =>
    intro s hC
    obtain ⟨hnd, hnames, hkeys, hcov⟩ := hC
    rcases hq : s.queue with _ | ⟨⟨rid, x, y⟩, rest⟩
    · have hstep : bfsLoop w (n + 1) s = s := by simp [bfsLoop, hq]
      rw [hstep]
      exact ⟨hnd, hnames, hkeys, hcov⟩
    · rcases hrid : w.heap[rid]? with _ | room
      · have hstep : bfsLoop w (n + 1) s = bfsLoop w n { s with queue := rest } := by
          simp [bfsLoop, hq, hrid]
        rw [hstep]
        apply ih
        refine ⟨hnd, hnames, hkeys, ?_⟩
        intro e he
        rcases hcov e he with hpend | hproc
        · obtain ⟨q, hqm, r, hr, hrn⟩ := hpend
          rw [hq] at hqm
          rcases List.mem_cons.mp hqm with hhead | htail
          · rw [hhead] at hr
            have hr' : w.heap[rid]? = some r := hr
            rw [hrid] at hr'
            exact absurd hr' (by simp)
          · exact Or.inl ⟨q, htail, r, hr, hrn⟩
        · exact Or.inr hproc
      · have hcore := foldl_processNeighbor_cover w room x y directionOrder
          { s with queue := rest } hnd hnames hkeys
        obtain ⟨O1, O2, O3, O4, O5, O6, O7, O8, O9⟩ := hcore
        have hstep : bfsLoop w (n + 1) s =
            bfsLoop w n (directionOrder.foldl (processNeighbor w room x y)
              { s with queue := rest }) := by
          simp [bfsLoop, hq, hrid]
        rw [hstep]
        apply ih
        refine ⟨O1, O2, O3, ?_⟩
        intro e het
        rcases O7 e het with hold | hpend
        · have hes : e ∈ s.grid_positions := hold
          rcases hcov e hes with hpend0 | hproc0
          · obtain ⟨q, hqm, r, hr, hrn⟩ := hpend0
            rw [hq] at hqm
            rcases List.mem_cons.mp hqm with hhead | htail
            · rw [hhead] at hr
              have hr' : w.heap[rid]? = some r := hr
              rw [hrid] at hr'
              have hroom : room = r := by injection hr'
              refine Or.inr ⟨rid, room, hrid, by rw [hroom]; exact hrn, ?_⟩
              intro d j rc hj hrc
              exact O8 d (mem_directionOrder d) j rc hj hrc
            · exact Or.inl ⟨q, O5 q htail, r, hr, hrn⟩
          · obtain ⟨i, r, hi, hrn, htv⟩ := hproc0
            exact Or.inr ⟨i, r, hi, hrn, fun d j rc h1 h2 => O4 _ (htv d j rc h1 h2)⟩
        · exact Or.inl hpend

/-- With fuel at least queue length plus the number of unvisited heap slots,
the layout BFS drains its queue completely. -/
theorem bfsLoop_drains (w : GameWorld) : ∀ (fuel : Nat) (s : LayoutState),
    s.visited.Nodup →
    (∀ n ∈ s.visited, ∃ r, r ∈ w.heap ∧ r.name = n) →
    (∀ n ∈ s.visited, ∃ e, e ∈ s.grid_positions ∧ e.1 = n) →
    s.queue.length + (w.heap.length - s.visited.length) ≤ fuel →
    (bfsLoop w fuel s).queue = [] := by
  intro fuel
  induction fuel with
  | zero =>
    intro s hnd hnames hkeys hfuel
    have hlen : s.queue.length = 0 := by omega
    exact List.length_eq_zero.mp hlen
  | succ n ih =>
    intro s hnd hnames hkeys hfuel
    rcases hq : s.queue with _ | ⟨⟨rid, x, y⟩, rest⟩
    · have hstep : bfsLoop w (n + 1) s = s := by simp [bfsLoop, hq]
      rw [hstep]
      exact hq
    · have hql : s.queue.length = rest.length + 1 := by rw [hq]; rfl
      rcases hrid : w.heap[rid]? with _ | room
      · have hstep : bfsLoop w (n + 1) s = bfsLoop w n { s with queue := rest } := by
          simp [bfsLoop, hq, hrid]
        rw [hstep]
        apply ih { s with queue := rest } hnd hnames hkeys
        have hql' : ({ s with queue := rest } : LayoutState).queue.length = rest.length := rfl
        have hvl' : ({ s with queue := rest } : LayoutState).visited.length =
            s.visited.length := rfl
        rw [hql', hvl']
        omega
      · obtain ⟨O1, O2, O3, O4, O5, O6, O7, O8, O9⟩ :=
          foldl_processNeighbor_cover w room x y directionOrder
            { s with queue := rest } hnd hnames hkeys
        have hstep : bfsLoop w (n + 1) s =
            bfsLoop w n (directionOrder.foldl (processNeighbor w room x y)
              { s with queue := rest }) := by
          simp [bfsLoop, hq, hrid]
        rw [hstep]
        apply ih _ O1 O2 O3
        have hvN : (directionOrder.foldl (processNeighbor w room x y)
            { s with queue := rest }).visited.length ≤ w.heap.length :=
          visited_length_le w _ O1 O2
        have hO9 : (directionOrder.foldl (processNeighbor w room x y)
              { s with queue := rest }).queue.length + s.visited.length =
            rest.length + (directionOrder.foldl (processNeighbor w room x y)
              { s with queue := rest }).visited.length := O9
        omega

/-- C7: with no current room the layout is empty; with a current room `r`,
the layout assigns `r` the origin as the first entry of the dict (so its
lookup is (0, 0)), assigns no name twice, gives every non-root entry the
coordinate of an already-assigned parent entry connected to it displaced by
that direction's fixed offset, reports extents that bound every assigned
coordinate, and is complete: every assigned room was fully expanded, i.e.
it has a live room object of its name every one of whose connection
targets is itself assigned in the dict (so no reachable unvisited neighbor
is ever skipped — the supplied fuel drains the BFS queue). -/
theorem calculate_room_positions_spec (w : GameWorld) :
    (w.current_room = none → calculate_room_positions w = emptyLayout) ∧
    (∀ rid r, w.current_room = some rid → w.heap[rid]? = some r →
      (calculate_room_positions w).lookup r.name = some (0, 0) ∧
      ((calculate_room_positions w).grid_positions.map (fun e => e.1)).Nodup ∧
      (∀ e ∈ (calculate_room_positions w).grid_positions,
        (e.1 = r.name ∧ e.2.1 = 0 ∧ e.2.2 = 0) ∨
        ∃ pe d, pe ∈ (calculate_room_positions w).grid_positions ∧
          EdgeName w pe.1 e.1 d ∧
          e.2.1 = pe.2.1 + (offsets d).1 ∧ e.2.2 = pe.2.2 + (offsets d).2) ∧
      (∀ e ∈ (calculate_room_positions w).grid_positions,
        extentsBound (calculate_room_positions w).min_x (calculate_room_positions w).max_x
          (calculate_room_positions w).min_y (calculate_room_positions w).max_y
          e.2.1 e.2.2) ∧
      (∀ e ∈ (calculate_room_positions w).grid_positions,
        ∃ (i : Nat) (re : Room), w.heap[i]? = some re ∧ re.name = e.1 ∧
          ∀ d j rc, re.connections d = some j → w.heap[j]? = some rc →
            ∃ e2, e2 ∈ (calculate_room_positions w).grid_positions ∧ e2.1 = rc.name)) := by
  constructor
  · intro h
    simp [calculate_room_positions, h]
  · intro rid r hc hr
    have hres : calculate_room_positions w =
        bfsLoop w (w.heap.length + 1)
          { grid_positions := [(r.name, 0, 0)]
            min_x := some 0
            max_x := some 0
            min_y := some 0
            max_y := some 0
            visited := [r.name]
            queue := [(rid, 0, 0)] } := by
      simp [calculate_room_positions, hc, hr]
    have hinv0 : LInv w r.name
        { grid_positions := [(r.name, 0, 0)]
          min_x := some 0
          max_x := some 0
          min_y := some 0
          max_y := some 0
          visited := [r.name]
          queue := [(rid, 0, 0)] } := by
      refine ⟨⟨[], rfl⟩, List.nodup_singleton _, ?_, ?_, ?_, ?_⟩
      · intro e he
        simp at he
        rw [he]
        simp
      · intro e he
        simp at he
        rw [he]
        exact ⟨⟨0, rfl, le_refl 0⟩, ⟨0, rfl, le_refl 0⟩, ⟨0, rfl, le_refl 0⟩,
          ⟨0, rfl, le_refl 0⟩⟩
      · intro e he
        simp at he
        rw [he]
        exact Or.inl ⟨rfl, rfl, rfl⟩
      · intro q hq
        simp at hq
        rw [hq]
        exact ⟨r, hr, by simp⟩
    have hC0 : CInv w
        { grid_positions := [(r.name, 0, 0)]
          min_x := some 0
          max_x := some 0
          min_y := some 0
          max_y := some 0
          visited := [r.name]
          queue := [(rid, 0, 0)] } := by
      refine ⟨List.nodup_singleton _, ?_, ?_, ?_⟩
      · intro n hn
        simp at hn
        rw [hn]
        exact ⟨r, List.getElem?_mem hr, rfl⟩
      · intro n hn
        simp at hn
        rw [hn]
        exact ⟨(r.name, 0, 0), by simp, rfl⟩
      · intro e he
        simp at he
        rw [he]
        exact Or.inl ⟨(rid, 0, 0), by simp, r, hr, rfl⟩
    have hcovfin := bfsLoop_cover w (w.heap.length + 1) _ hC0
    have hdrain := bfsLoop_drains w (w.heap.length + 1) _
      hC0.visited_nodup hC0.visited_names hC0.visited_keys (by simp; omega)
    have hinv := bfsLoop_inv w r.name (w.heap.length + 1) _ hinv0
    rw [hres]
    obtain ⟨⟨t, ht⟩, Inodup, -, Ibnd, Ipar, -⟩ := hinv
    refine ⟨?_, Inodup, Ipar, Ibnd, ?_⟩
    · rw [LayoutState.lookup, ht]
      simp [List.find?]
    · intro e he
      rcases hcovfin.coverage e he with hpend | hproc
      · obtain ⟨q, hqm, -⟩ := hpend
        rw [hdrain] at hqm
        exact absurd hqm (List.not_mem_nil q)
      · obtain ⟨i, re, hi, hname, htv⟩ := hproc
        exact ⟨i, re, hi, hname,
          fun d j rc h1 h2 => hcovfin.visited_keys rc.name (htv d j rc h1 h2)⟩

/-- C7 witness: the layout of a world with no current room is empty; on
the concrete two-room world the current room A is looked up at the origin
with no name assigned twice, the completeness conjunct applies to A's
entry, and room B — A's unvisited north neighbor — is indeed assigned the
parent coordinate plus the north offset, (0, -1). -/
theorem calculate_room_positions_spec_witness :
    (calculate_room_positions (GameWorld.init [] varsEmpty)).grid_positions = [] ∧
    (calculate_room_positions c2World).lookup "A" = some (0, 0) ∧
    ((calculate_room_positions c2World).grid_positions.map (fun e => e.1)).Nodup ∧
    (∀ e ∈ (calculate_room_positions c2World).grid_positions,
      ∃ (i : Nat) (re : Room), c2World.heap[i]? = some re ∧ re.name = e.1 ∧
        ∀ d j rc, re.connections d = some j → c2World.heap[j]? = some rc →
          ∃ e2, e2 ∈ (calculate_room_positions c2World).grid_positions ∧ e2.1 = rc.name) ∧
    (calculate_room_positions c2World).lookup "B" = some (0, -1) := by
  have h0 := (calculate_room_positions_spec (GameWorld.init [] varsEmpty)).1 rfl
  have h2 := (calculate_room_positions_spec c2World).2 0 roomA rfl rfl
  exact ⟨by rw [h0]; rfl, h2.1, h2.2.1, h2.2.2.2.2, by decide⟩

end Onton

